import Mathlib
/-!
Shallow embedding of the overlapped-speech-detection pipeline
(`src/pyannote/audio/pipelines/overlapped_speech_detection.py`) and of the
speaker-change-detection target preparation
(`src/pyannote/audio/tasks/segmentation/speaker_change_detection.py`).

Times and scores are embedded as rationals.  The interval containers of
`pyannote.core` (Segment, Timeline, Annotation) and the `Binarize`
post-processor of `pyannote.audio.utils.signal` are code of the repository
that is not present under `src/`; those parts are modelled from the spec and
carry doc comments saying so.
-/

/-- A time interval `[start, stop)` with rational endpoints, modelling
`pyannote.core.Segment` (the field `end` is renamed `stop`, `end` being a
Lean keyword). -/
@[ext]
structure Segment where
  start : ℚ
  stop : ℚ
deriving DecidableEq, Repr

/-- Two segments intersect when their common part `[max starts, min stops)`
has positive length; for well-formed (positive-length) segments this is
exactly `pyannote.core.Segment.intersects`. -/
def intersects (s t : Segment) : Prop :=
  max s.start t.start < min s.stop t.stop

instance : DecidableRel intersects := fun s t =>
  inferInstanceAs (Decidable (max s.start t.start < min s.stop t.stop))

/-- `s1 & s2` on segments: the common sub-interval. -/
def interSeg (s t : Segment) : Segment :=
  ⟨max s.start t.start, min s.stop t.stop⟩

/-- Time order on segments: lexicographic on `(start, stop)`, the order in
which `pyannote.core.Timeline` keeps its segments. -/
def segLE (s t : Segment) : Prop :=
  s.start < t.start ∨ (s.start = t.start ∧ s.stop ≤ t.stop)

instance : DecidableRel segLE := fun s t =>
  inferInstanceAs (Decidable (s.start < t.start ∨ (s.start = t.start ∧ s.stop ≤ t.stop)))

instance : IsTotal Segment segLE where
  total s t := by
    rcases lt_trichotomy s.start t.start with h | h | h
    · exact Or.inl (Or.inl h)
    · rcases le_total s.stop t.stop with h2 | h2
      · exact Or.inl (Or.inr ⟨h, h2⟩)
      · exact Or.inr (Or.inr ⟨h.symm, h2⟩)
    · exact Or.inr (Or.inl h)

instance : IsTrans Segment segLE where
  trans a b c hab hbc := by
    rcases hab with h | ⟨h1, h2⟩ <;> rcases hbc with g | ⟨g1, g2⟩
    · exact Or.inl (h.trans g)
    · exact Or.inl (lt_of_lt_of_le h (le_of_eq g1))
    · exact Or.inl (lt_of_le_of_lt (le_of_eq h1) g)
    · exact Or.inr ⟨h1.trans g1, h2.trans g2⟩

instance : IsAntisymm Segment segLE where
  antisymm a b hab hba := by
    have hs : a.start = b.start := by
      rcases hab with h | ⟨h1, _⟩
      · rcases hba with g | ⟨g1, _⟩
        · exact absurd (h.trans g) (lt_irrefl _)
        · exact g1.symm
      · exact h1
    have ht : a.stop = b.stop := by
      rcases hab with h | ⟨_, h2⟩
      · rw [hs] at h; exact absurd h (lt_irrefl _)
      · rcases hba with g | ⟨_, g2⟩
        · rw [hs] at g; exact absurd g (lt_irrefl _)
        · exact le_antisymm h2 g2
    exact Segment.ext hs ht

/-- Modelled from the spec: the merging scan of `Timeline.support()`
(pyannote.core, not under `src/`) — "merging of overlapping/adjacent
intervals into maximal disjoint intervals".  `mergeLoop cur l` scans the
time-sorted list `l`, absorbing every segment that starts no later than the
current end, and emitting the current segment when a genuine gap appears. -/
def mergeLoop (cur : Segment) : List Segment → List Segment
  | [] => [cur]
  | s :: rest =>
    if s.start ≤ cur.stop then mergeLoop ⟨cur.start, max cur.stop s.stop⟩ rest
    else cur :: mergeLoop s rest

/-- Merge a time-sorted list of segments into maximal disjoint segments. -/
def mergeAll : List Segment → List Segment
  | [] => []
  | s :: rest => mergeLoop s rest

/-- Modelled from the spec: `Timeline.support()` (pyannote.core, not under
`src/`) — sort the segments in time order, then merge overlapping/adjacent
ones into "the minimal covering set of disjoint intervals". -/
def support (l : List Segment) : List Segment :=
  mergeAll (List.insertionSort segLE l)

/-- One row of a speaker diarization reference: a `(segment, track name,
speaker label)` triple. -/
abbrev Entry := Segment × String × String

/-- Modelling `pyannote.core.Annotation` restricted to what `to_overlap`
uses: a URI together with the list of `(segment, track, label)` entries. -/
@[ext]
structure Annot where
  uri : String
  tracks : List Entry
deriving DecidableEq, Repr

/-- Modelled from the spec: `Annotation.co_iter` (pyannote.core, not under
`src/`) — "pairwise co-iteration over all interval pairs from two labeled
collections (including self-pairing) that intersect", specialised to the
self-co-iteration used by `to_overlap`: every ordered pair of entries whose
segments intersect. -/
def coIter (l : List Entry) : List (Entry × Entry) :=
  l.flatMap fun e1 => (l.filter fun e2 => decide (intersects e1.1 e2.1)).map fun e2 => (e1, e2)

/-- Translated from the loop of `to_overlap`
(src/pyannote/audio/pipelines/overlapped_speech_detection.py, lines 54–60):
for every co-iterated pair of entries, skip the pair when both labels agree
(`if l1 == l2: continue`), otherwise record the intersection segment. -/
def overlapRegions (l : List Entry) : List Segment :=
  (coIter l).filterMap fun p =>
    if p.1.2.2 = p.2.2.2 then none else some (interSeg p.1.1 p.2.1)

/-- Translated from `to_overlap`
(src/pyannote/audio/pipelines/overlapped_speech_detection.py, lines 40–61):
record the pairwise intersections of distinct-label entries, merge them via
`support`, and wrap the merged segments as a single-class "overlap"
annotation carrying the source URI.  The final wrapping step
(`Timeline.to_annotation`, pyannote.core, not under `src/`) is modelled from
the spec: "Wrap as a single-class Annotation labeled overlap, preserving the
source URI". -/
def toOverlap (a : Annot) : Annot :=
  ⟨a.uri, (support (overlapRegions a.tracks)).map fun s => (s, "overlap", "overlap")⟩

/-- Translated from `SpeakerChangeDetection.prepare_y`
(src/pyannote/audio/tasks/segmentation/speaker_change_detection.py,
lines 140–141): the raw change indicator — frame `t` is a candidate iff the
per-speaker activity row differs between frames `t - 1` and `t` (sum of
absolute differences strictly positive); frame 0 is never a candidate. -/
def rawChange (Y : ℕ → ℕ → ℚ) (K : ℕ) (t : ℕ) : ℚ :=
  if t = 0 then 0
  else if 0 < (Finset.range K).sum (fun k => |Y t k - Y (t - 1) k|) then 1 else 0

/-- Translated from `scipy.signal.triang(2 * collar + 1)` (line 144): for an
odd length `2 * c + 1` the window value at index `i` is
`(min i (2c - i) + 1) / (c + 1)`; the peak, at index `c`, is `1`. -/
def triangWin (c i : ℕ) : ℚ :=
  ((min i (2 * c - i) + 1 : ℕ) : ℚ) / ((c : ℚ) + 1)

/-- Translated from `scipy.signal.convolve(y, window, mode="same")`
(line 145): same-size convolution of the raw indicator with the triangular
window, the window centred at index `c`, frames outside `[0, N)` reading as
zero. -/
def convTri (c N : ℕ) (raw : ℕ → ℚ) (t : ℕ) : ℚ :=
  (Finset.range (2 * c + 1)).sum fun d =>
    if d ≤ t + c ∧ t + c - d < N then triangWin c d * raw (t + c - d) else 0

/-- The `1e-10` threshold of line 146. -/
def eps : ℚ := 1 / 10 ^ 10

/-- Translated from lines 144–146: convolve with the triangular window,
clamp at 1 (`np.minimum(1, ...)`), and mark the frame iff the clamped value
exceeds `1e-10`. -/
def smoothedChange (c N K : ℕ) (Y : ℕ → ℕ → ℚ) (t : ℕ) : ℚ :=
  if eps < min 1 (convTri c N (rawChange Y K) t) then 1 else 0

/-- Translated from lines 152–166: total activity of speaker `k` inside the
window of `2 * c + 1` frames centred at frame `t` of the zero-padded
activity matrix (`expanded_y` plus the stride trick). -/
def windowSum (c N : ℕ) (Y : ℕ → ℕ → ℚ) (t k : ℕ) : ℚ :=
  (Finset.range (2 * c + 1)).sum fun j =>
    if c ≤ t + j ∧ t + j - c < N then Y (t + j - c) k else 0

/-- Translated from lines 168–171: `x_speakers[t] = 1` iff strictly more
than one speaker has nonzero activity somewhere in the window centred at
frame `t` (`np.sum(np.sum(data, axis=2) > 0, axis=1) > 1`, the outer sum
adding the boolean indicators). -/
def xSpeakers (c N K : ℕ) (Y : ℕ → ℕ → ℚ) (t : ℕ) : ℚ :=
  if 1 < (Finset.range K).sum (fun k => if 0 < windowSum c N Y t k then (1 : ℚ) else 0)
  then 1 else 0

/-- Translated from `SpeakerChangeDetection.prepare_y` (lines 121–175), for
an `N × K` one-hot activity matrix `Y` and collar `c`: the frame-wise change
target is the smoothed change indicator masked by the more-than-one-speaker
window test (`y *= x_speakers`). -/
def prepareY (c N K : ℕ) (Y : ℕ → ℕ → ℚ) (t : ℕ) : ℚ :=
  smoothedChange c N K Y t * xSpeakers c N K Y t

/-- The concrete one-hot matrix of the change-labeler scenario: 10 frames,
2 speakers, speaker 0 active on frames `[0, 5)`, speaker 1 on `[5, 10)`. -/
def oneHotC1 (t k : ℕ) : ℚ :=
  if k = 0 then (if t < 5 then 1 else 0)
  else if k = 1 then (if 5 ≤ t ∧ t < 10 then 1 else 0)
  else 0

/-- Modelled from the spec: step 1 of the post-processing of the hysteresis
binarizer (`pyannote.audio.utils.signal.Binarize`, code of this repository
not under `src/`) — "Discard any closed segment shorter than
`min_duration_on`". -/
def dropShort (pon : ℚ) (segs : List Segment) : List Segment :=
  segs.filter fun s => decide (pon ≤ s.stop - s.start)

/-- Modelled from the spec: the scan implementing step 2 of the Binarize
post-processing — merge the current segment with the next one whenever the
gap between them is shorter than `min_duration_off`. -/
def fillLoop (poff : ℚ) (cur : Segment) : List Segment → List Segment
  | [] => [cur]
  | s :: rest =>
    if s.start - cur.stop < poff then fillLoop poff ⟨cur.start, max cur.stop s.stop⟩ rest
    else cur :: fillLoop poff s rest

/-- Modelled from the spec: step 2 of the Binarize post-processing — "Fill
(merge across) any gap between two consecutive retained segments shorter
than `min_duration_off`". -/
def fillGaps (poff : ℚ) : List Segment → List Segment
  | [] => []
  | s :: rest => fillLoop poff s rest

/-- Modelled from the spec (§4.4): the Binarize post-processing,
"deterministic, order matters": first discard segments shorter than
`min_duration_on`, then fill gaps shorter than `min_duration_off`. -/
def postProcess (pon poff : ℚ) (segs : List Segment) : List Segment :=
  fillGaps poff (dropShort pon segs)

/-- Translated from `OverlappedSpeechDetection.loss`
(src/pyannote/audio/pipelines/overlapped_speech_detection.py,
lines 244–254), with the achieved precision and recall — computed by the
external `pyannote.metrics` black box — taken as inputs: with a target
precision configured, return `precision - target` when below target and the
recall otherwise; symmetrically for a target recall; with no target
configured the Python function falls through and returns `None`. -/
def lossValue (targetPrecision targetRecall : Option ℚ) (precisionA recallA : ℚ) : Option ℚ :=
  match targetPrecision with
  | some tp => if precisionA < tp then some (precisionA - tp) else some recallA
  | none =>
    match targetRecall with
    | some tr => if recallA < tr then some (recallA - tr) else some precisionA
    | none => none

/-- Translated from `OverlappedSpeechDetection.__init__`
(src/pyannote/audio/pipelines/overlapped_speech_detection.py,
lines 143–149): constructing with both a target precision and a target
recall raises a `ValueError`; otherwise construction proceeds. -/
def checkTargets (precisionT recallT : Option ℚ) : Except String Unit :=
  if precisionT.isSome ∧ recallT.isSome then
    Except.error "One must choose between optimizing for target precision or target recall."
  else Except.ok ()

theorem segLE_start_le {a b : Segment} (h : segLE a b) : a.start ≤ b.start := by
  rcases h with h | ⟨h1, _⟩
  · exact le_of_lt h
  · exact le_of_eq h1

theorem mergeLoop_start_le (cur : Segment) (l : List Segment)
    (hlb : ∀ x ∈ l, cur.start ≤ x.start)
    (hp : List.Pairwise (fun a b => a.start ≤ b.start) l) :
    ∀ x ∈ mergeLoop cur l, cur.start ≤ x.start := by
  induction l generalizing cur with
  | nil =>
    intro x hx
    simp only [mergeLoop, List.mem_singleton] at hx
    subst hx; exact le_refl _
  | cons s rest ih =>
    intro x hx
    rw [mergeLoop] at hx
    by_cases h : s.start ≤ cur.stop
    · rw [if_pos h] at hx
      exact ih ⟨cur.start, max cur.stop s.stop⟩
        (fun y hy => hlb y (List.mem_cons_of_mem _ hy)) hp.of_cons x hx
    · rw [if_neg h] at hx
      rcases List.mem_cons.mp hx with rfl | hx2
      · exact le_refl _
      · have hrec := ih s (fun y hy => (List.pairwise_cons.mp hp).1 y hy) hp.of_cons x hx2
        exact (hlb s (List.mem_cons_self _ _)).trans hrec

theorem mergeLoop_disjoint (cur : Segment) (l : List Segment)
    (hlb : ∀ x ∈ l, cur.start ≤ x.start)
    (hp : List.Pairwise (fun a b => a.start ≤ b.start) l) :
    List.Pairwise (fun a b => a.stop < b.start) (mergeLoop cur l) := by
  induction l generalizing cur with
  | nil => simp [mergeLoop]
  | cons s rest ih =>
    rw [mergeLoop]
    by_cases h : s.start ≤ cur.stop
    · rw [if_pos h]
      exact ih ⟨cur.start, max cur.stop s.stop⟩
        (fun y hy => hlb y (List.mem_cons_of_mem _ hy)) hp.of_cons
    · rw [if_neg h]
      refine List.pairwise_cons.mpr ⟨?_, ih s (fun y hy => (List.pairwise_cons.mp hp).1 y hy) hp.of_cons⟩
      intro x hx
      have hxs : s.start ≤ x.start :=
        mergeLoop_start_le s rest (fun y hy => (List.pairwise_cons.mp hp).1 y hy) hp.of_cons x hx
      exact lt_of_lt_of_le (lt_of_not_le h) hxs

theorem mergeLoop_sorted (cur : Segment) (l : List Segment)
    (hlb : ∀ x ∈ l, cur.start ≤ x.start)
    (hp : List.Pairwise (fun a b => a.start ≤ b.start) l) :
    List.Pairwise (fun a b => a.start ≤ b.start) (mergeLoop cur l) := by
  induction l generalizing cur with
  | nil => simp [mergeLoop]
  | cons s rest ih =>
    rw [mergeLoop]
    by_cases h : s.start ≤ cur.stop
    · rw [if_pos h]
      exact ih ⟨cur.start, max cur.stop s.stop⟩
        (fun y hy => hlb y (List.mem_cons_of_mem _ hy)) hp.of_cons
    · rw [if_neg h]
      refine List.pairwise_cons.mpr ⟨?_, ih s (fun y hy => (List.pairwise_cons.mp hp).1 y hy) hp.of_cons⟩
      intro x hx
      have hxs : s.start ≤ x.start :=
        mergeLoop_start_le s rest (fun y hy => (List.pairwise_cons.mp hp).1 y hy) hp.of_cons x hx
      exact (hlb s (List.mem_cons_self _ _)).trans hxs

theorem support_disjoint (l : List Segment) :
    List.Pairwise (fun a b => a.stop < b.start) (support l) := by
  unfold support
  cases hs : List.insertionSort segLE l with
  | nil => simp [mergeAll]
  | cons c rest =>
    have hsort : List.Sorted segLE (c :: rest) := hs ▸ List.sorted_insertionSort segLE l
    show List.Pairwise _ (mergeLoop c rest)
    exact mergeLoop_disjoint c rest
      (fun x hx => segLE_start_le ((List.pairwise_cons.mp hsort).1 x hx))
      (hsort.of_cons.imp segLE_start_le)

theorem support_sorted (l : List Segment) :
    List.Pairwise (fun a b => a.start ≤ b.start) (support l) := by
  unfold support
  cases hs : List.insertionSort segLE l with
  | nil => simp [mergeAll]
  | cons c rest =>
    have hsort : List.Sorted segLE (c :: rest) := hs ▸ List.sorted_insertionSort segLE l
    show List.Pairwise _ (mergeLoop c rest)
    exact mergeLoop_sorted c rest
      (fun x hx => segLE_start_le ((List.pairwise_cons.mp hsort).1 x hx))
      (hsort.of_cons.imp segLE_start_le)

theorem support_eq_of_perm {l1 l2 : List Segment} (h : l1.Perm l2) :
    support l1 = support l2 := by
  unfold support
  congr 1
  exact List.eq_of_perm_of_sorted
    (((List.perm_insertionSort segLE l1).trans h).trans (List.perm_insertionSort segLE l2).symm)
    (List.sorted_insertionSort segLE l1) (List.sorted_insertionSort segLE l2)

theorem fillLoop_min_duration (poff pon : ℚ) (cur : Segment) (l : List Segment)
    (hc : pon ≤ cur.stop - cur.start) (hl : ∀ s ∈ l, pon ≤ s.stop - s.start) :
    ∀ x ∈ fillLoop poff cur l, pon ≤ x.stop - x.start := by
  induction l generalizing cur with
  | nil =>
    intro x hx
    simp only [fillLoop, List.mem_singleton] at hx
    subst hx; exact hc
  | cons s rest ih =>
    intro x hx
    rw [fillLoop] at hx
    by_cases h : s.start - cur.stop < poff
    · rw [if_pos h] at hx
      refine ih ⟨cur.start, max cur.stop s.stop⟩ ?_
        (fun y hy => hl y (List.mem_cons_of_mem _ hy)) x hx
      have hmax : cur.stop ≤ max cur.stop s.stop := le_max_left _ _
      dsimp only
      linarith
    · rw [if_neg h] at hx
      rcases List.mem_cons.mp hx with rfl | hx2
      · exact hc
      · exact ih s (hl s (List.mem_cons_self _ _))
          (fun y hy => hl y (List.mem_cons_of_mem _ hy)) x hx2

theorem fillLoop_head_start (poff : ℚ) (cur : Segment) (l : List Segment) :
    ∀ y ∈ (fillLoop poff cur l).head?, (y : Segment).start = cur.start := by
  induction l generalizing cur with
  | nil =>
    intro y hy
    simp only [fillLoop, List.head?_cons, Option.mem_def, Option.some.injEq] at hy
    subst hy; rfl
  | cons s rest ih =>
    intro y hy
    rw [fillLoop] at hy
    by_cases h : s.start - cur.stop < poff
    · rw [if_pos h] at hy
      exact ih ⟨cur.start, max cur.stop s.stop⟩ y hy
    · rw [if_neg h] at hy
      simp only [List.head?_cons, Option.mem_def, Option.some.injEq] at hy
      subst hy; rfl

theorem fillLoop_gap (poff : ℚ) (cur : Segment) (l : List Segment) :
    List.Chain' (fun a b => poff ≤ b.start - a.stop) (fillLoop poff cur l) := by
  induction l generalizing cur with
  | nil => simp [fillLoop]
  | cons s rest ih =>
    rw [fillLoop]
    by_cases h : s.start - cur.stop < poff
    · rw [if_pos h]; exact ih _
    · rw [if_neg h]
      rw [List.chain'_cons']
      refine ⟨?_, ih s⟩
      intro y hy
      rw [fillLoop_head_start poff s rest y hy]
      linarith [not_lt.mp h]

theorem postProcess_min_duration (pon poff : ℚ) (segs : List Segment) :
    ∀ x ∈ postProcess pon poff segs, pon ≤ x.stop - x.start := by
  rw [postProcess]
  have hall : ∀ s ∈ dropShort pon segs, pon ≤ s.stop - s.start := by
    intro s hs
    simp only [dropShort, List.mem_filter] at hs
    exact of_decide_eq_true hs.2
  cases hd : dropShort pon segs with
  | nil => simp [fillGaps]
  | cons c rest =>
    rw [hd] at hall
    show ∀ x ∈ fillLoop poff c rest, pon ≤ x.stop - x.start
    exact fillLoop_min_duration poff pon c rest (hall c (List.mem_cons_self _ _))
      (fun y hy => hall y (List.mem_cons_of_mem _ hy))

theorem postProcess_gap (pon poff : ℚ) (segs : List Segment) :
    List.Chain' (fun a b => poff ≤ b.start - a.stop) (postProcess pon poff segs) := by
  rw [postProcess]
  cases dropShort pon segs with
  | nil => simp [fillGaps]
  | cons c rest =>
    show List.Chain' _ (fillLoop poff c rest)
    exact fillLoop_gap poff c rest

theorem postProcess_merges (pon poff : ℚ) (a b : Segment)
    (hab : b.start - a.stop < poff) (ha : pon ≤ a.stop - a.start)
    (hb : pon ≤ b.stop - b.start) :
    postProcess pon poff [a, b] = [⟨a.start, max a.stop b.stop⟩] := by
  have h1 : decide (pon ≤ a.stop - a.start) = true := decide_eq_true ha
  have h2 : decide (pon ≤ b.stop - b.start) = true := decide_eq_true hb
  rw [postProcess, dropShort]
  simp only [List.filter_cons, h1, h2, if_true, List.filter_nil]
  rw [fillGaps, fillLoop, if_pos hab, fillLoop]

/-- C2: for a reference with speaker "A" on `[0, 10)` and speaker "B" on
`[5, 15)` and nothing else, `to_overlap` returns an annotation consisting of
exactly one interval `[5, 10)`, carrying the single class "overlap" and the
same URI as the input. -/
theorem toOverlap_two_speaker_scenario :
    toOverlap ⟨"file1", [(⟨0, 10⟩, "0", "A"), (⟨5, 15⟩, "1", "B")]⟩ =
      ⟨"file1", [(⟨5, 10⟩, "overlap", "overlap")]⟩ := by
  decide

/-- C4: for an annotation made of exactly two tracks carrying the same
speaker label, with fully overlapping (here: identical) intervals and no
other speaker, `to_overlap` returns an empty annotation: the `l1 == l2`
test skips every co-iterated pair. -/
theorem toOverlap_same_label_empty (u t1 t2 L : String) (s1 s2 : Segment)
    (h : s1 = s2) :
    (toOverlap ⟨u, [(s1, t1, L), (s2, t2, L)]⟩).tracks = [] := by
  subst h
  have hlab : ∀ e ∈ [(s1, t1, L), (s1, t2, L)], (e : Entry).2.2 = L := by
    intro e he
    rcases List.mem_cons.mp he with rfl | he2
    · rfl
    · have := List.mem_singleton.mp he2
      subst this; rfl
  have hreg : overlapRegions [(s1, t1, L), (s1, t2, L)] = [] := by
    rw [overlapRegions, List.filterMap_eq_nil_iff]
    intro p hp
    rw [coIter] at hp
    simp only [List.mem_flatMap, List.mem_map, List.mem_filter] at hp
    obtain ⟨e1, he1, e2, ⟨he2, -⟩, rfl⟩ := hp
    rw [if_pos ((hlab e1 he1).trans (hlab e2 he2).symm)]
  rw [toOverlap]
  simp [hreg, support, mergeAll]

/-- Witness for C4 at a concrete input: two tracks with label "A" on the
identical interval `[0, 1)` produce an empty overlap annotation. -/
theorem toOverlap_same_label_empty_witness :
    (toOverlap ⟨"u", [(⟨0, 1⟩, "t1", "A"), (⟨0, 1⟩, "t2", "A")]⟩).tracks = [] :=
  toOverlap_same_label_empty "u" "t1" "t2" "A" ⟨0, 1⟩ ⟨0, 1⟩ rfl

/-- C5: for every annotation, the intervals of the annotation returned by
`to_overlap` are pairwise disjoint (no two of them intersect) and sorted by
start time — the `support()` post-condition. -/
theorem toOverlap_disjoint_sorted (a : Annot) :
    List.Pairwise (fun s t => ¬ intersects s t) ((toOverlap a).tracks.map fun e => e.1) ∧
    List.Pairwise (fun s t => s.start ≤ t.start) ((toOverlap a).tracks.map fun e => e.1) := by
  have hmap : ((toOverlap a).tracks.map fun e => e.1) = support (overlapRegions a.tracks) := by
    rw [toOverlap]
    simp [List.map_map, Function.comp_def]
  constructor
  · rw [hmap]
    refine (support_disjoint _).imp ?_
    intro x y h
    exact not_lt.mpr (le_trans (le_trans (min_le_left _ _) (le_of_lt h)) (le_max_right _ _))
  · rw [hmap]
    exact support_sorted _

/-- C6: `to_overlap` is invariant under any permutation of the
`(interval, track, label)` entries of its input (and preservation of the
URI): every ordered pair of entries is still co-iterated, and `support`
sorts the collected intersections. -/
theorem toOverlap_perm_invariant (a b : Annot) (hu : a.uri = b.uri)
    (hp : a.tracks.Perm b.tracks) : toOverlap a = toOverlap b := by
  have hco : (coIter a.tracks).Perm (coIter b.tracks) := by
    rw [coIter, coIter]
    refine (List.Perm.flatMap_left a.tracks ?_).trans (List.Perm.flatMap_right _ hp)
    intro e1 _
    exact (hp.filter _).map _
  have hreg : (overlapRegions a.tracks).Perm (overlapRegions b.tracks) := by
    rw [overlapRegions, overlapRegions]
    exact hco.filterMap _
  simp only [toOverlap]
  rw [hu, support_eq_of_perm hreg]

/-- Witness for C6 at a concrete input: swapping the two tracks of the
two-speaker scenario leaves the overlap annotation unchanged. -/
theorem toOverlap_perm_invariant_witness :
    toOverlap ⟨"u", [(⟨0, 10⟩, "0", "A"), (⟨5, 15⟩, "1", "B")]⟩ =
      toOverlap ⟨"u", [(⟨5, 15⟩, "1", "B"), (⟨0, 10⟩, "0", "A")]⟩ :=
  toOverlap_perm_invariant _ _ rfl (List.Perm.swap _ _ _)

/-- C7: with a target precision configured, `loss` returns
`precision - target` — a strictly negative value — whenever the achieved
precision is strictly below the target, and returns the achieved recall
otherwise. -/
theorem loss_target_precision (tp p r : ℚ) :
    (p < tp → lossValue (some tp) none p r = some (p - tp) ∧ p - tp < 0) ∧
    (tp ≤ p → lossValue (some tp) none p r = some r) := by
  constructor
  · intro h
    refine ⟨?_, by linarith⟩
    show (if p < tp then some (p - tp) else some r) = some (p - tp)
    rw [if_pos h]
  · intro h
    show (if p < tp then some (p - tp) else some r) = some r
    rw [if_neg (not_lt.mpr h)]

/-- Witness for C7 at concrete inputs: target precision 1 with achieved
precision 0 and recall 5 gives loss `0 - 1 < 0`; target precision 1/2 with
achieved precision 3/4 and recall 1/4 gives loss `1/4` (the recall). -/
theorem loss_target_precision_witness :
    (lossValue (some 1) none 0 5 = some (0 - 1) ∧ (0 : ℚ) - 1 < 0) ∧
    lossValue (some (1/2)) none (3/4) (1/4) = some (1/4) :=
  ⟨(loss_target_precision 1 0 5).1 (by norm_num),
    (loss_target_precision (1/2) (3/4) (1/4)).2 (by norm_num)⟩

/-- C8: in the binarized output, every segment surviving the Binarize
post-processing is at least `min_duration_on` long, no two consecutive
output segments are separated by a gap shorter than `min_duration_off`
(such pairs are merged into the single segment spanning both), and the
discarding of short segments happens before gap filling — witnessed by the
concrete run where two sub-threshold segments are discarded even though
filling their short gap first would have produced one long-enough segment. -/
theorem binarize_postprocess_props (pon poff : ℚ) (segs : List Segment) (a b : Segment) :
    (∀ x ∈ postProcess pon poff segs, pon ≤ x.stop - x.start) ∧
    List.Chain' (fun x y => poff ≤ y.start - x.stop) (postProcess pon poff segs) ∧
    (b.start - a.stop < poff → pon ≤ a.stop - a.start → pon ≤ b.stop - b.start →
      postProcess pon poff [a, b] = [⟨a.start, max a.stop b.stop⟩]) ∧
    postProcess (3/10) (1/10) [⟨0, 1/4⟩, ⟨3/10, 11/20⟩] = [] :=
  ⟨postProcess_min_duration pon poff segs, postProcess_gap pon poff segs,
    fun h1 h2 h3 => postProcess_merges pon poff a b h1 h2 h3,
    by norm_num [postProcess, dropShort, fillGaps, fillLoop]⟩

/-- Witness for C8 at concrete inputs: with `min_duration_on = 1/2` and
`min_duration_off = 1/4`, the segments `[0, 1)` and `[9/8, 2)` (gap `1/8`)
are merged into `[0, 2)`, whose duration satisfies the lower bound. -/
theorem binarize_postprocess_props_witness :
    ((1 : ℚ)/2 ≤ (2 : ℚ) - 0) ∧
    postProcess ((1 : ℚ)/2) (1/4) [⟨0, 1⟩, ⟨9/8, 2⟩] = [⟨0, 2⟩] := by
  have h := binarize_postprocess_props (1/2) (1/4) [⟨0, 1⟩, ⟨9/8, 2⟩] ⟨0, 1⟩ ⟨9/8, 2⟩
  have hm := h.2.2.1 (by norm_num) (by norm_num) (by norm_num)
  rw [show max (1 : ℚ) 2 = 2 from by norm_num] at hm
  refine ⟨?_, hm⟩
  exact h.1 ⟨0, 2⟩ (by rw [hm]; exact List.mem_singleton.mpr rfl)

/-- C9: constructing an `OverlappedSpeechDetection` pipeline with both a
target precision and a target recall raises the `ValueError` of lines
143–146; with at most one of the two set, construction succeeds. -/
theorem checkTargets_validation (tp tr : ℚ) (p q : Option ℚ) (h : p = none ∨ q = none) :
    checkTargets (some tp) (some tr) =
      Except.error "One must choose between optimizing for target precision or target recall." ∧
    checkTargets p q = Except.ok () := by
  constructor
  · simp [checkTargets]
  · rcases h with rfl | rfl
    · simp [checkTargets]
    · simp [checkTargets]

/-- Witness for C9 at concrete inputs: both targets set to 1 errors, while
no target precision and target recall 1 succeeds. -/
theorem checkTargets_validation_witness :
    checkTargets (some 1) (some 1) =
      Except.error "One must choose between optimizing for target precision or target recall." ∧
    checkTargets none (some 1) = Except.ok () :=
  checkTargets_validation 1 1 none (some 1) (Or.inl rfl)

/-- C10: with neither a target precision nor a target recall configured,
the Python `loss` method falls through both branches and returns `None`
(here: `none`), for every achieved precision and recall. -/
theorem loss_no_target_none (p r : ℚ) : lossValue none none p r = none := rfl

/-- Counterexample to C1: in the claimed scenario (10 frames, speaker A on
`[0, 5)`, speaker B on `[5, 10)`, collar 1), frame 6 is not marked: its
window of frames 5–7 contains speaker B only, so the more-than-one-speaker
exclusion of lines 168–173 zeroes it, contradicting the claimed set
`{4, 5, 6}`. -/
theorem prepareY_change_scenario_frame6 :
    prepareY 1 10 2 oneHotC1 6 = 0 ∧ (0 : ℚ) ≠ 1 := by
  constructor
  · norm_num [prepareY, smoothedChange, xSpeakers, windowSum, convTri, rawChange,
      triangWin, eps, oneHotC1, Finset.sum_range_succ, -Finset.sum_boole]
  · norm_num

set_option maxHeartbeats 2000000 in
/-- C1 (amended): in the claimed scenario, `prepare_y` returns the vector
that is 1 exactly on frames `{4, 5}` and 0 on every other frame — frame 6
is spread by the collar smoothing but removed again by the
more-than-one-speaker-in-window exclusion. -/
theorem prepareY_change_scenario :
    (List.range 10).map (prepareY 1 10 2 oneHotC1) = [0, 0, 0, 0, 1, 1, 0, 0, 0, 0] := by
  norm_num [List.range_succ, prepareY, smoothedChange, xSpeakers, windowSum, convTri,
    rawChange, triangWin, eps, oneHotC1, Finset.sum_range_succ, -Finset.sum_boole]

/-- Counterexample to C3: for collar 1 the window used by `prepare_y` is
`scipy.signal.triang(3) = [1/2, 1, 1/2]`, whose peak weight (index 1) is
`1`, not `collar + 1 = 2` as the claim states. -/
theorem triang_peak_not_collar_succ : triangWin 1 1 = 1 ∧ (1 : ℚ) ≠ 1 + 1 := by
  constructor
  · norm_num [triangWin]
  · norm_num

/-- C3 (amended): the smoothing convolution of `prepare_y` applies the
triangular kernel of width `2 * collar + 1` whose peak weight equals `1`
(scipy normalises the triangular window to peak 1; the kernel is still not
area-normalised), and a frame is marked positive exactly when its
post-convolution value exceeds `1e-10` — the clamp `np.minimum(1, ·)`
preceding the comparison never changes its outcome. -/
theorem triang_peak_and_threshold (c N K : ℕ) (Y : ℕ → ℕ → ℚ) (t : ℕ) :
    triangWin c c = 1 ∧
    (smoothedChange c N K Y t = 1 ↔ eps < convTri c N (rawChange Y K) t) := by
  refine ⟨?_, ?_, ?_⟩
  · rw [triangWin, show 2 * c - c = c from by omega, min_self]
    push_cast
    exact div_self (by positivity)
  · intro h
    by_cases hc : eps < min 1 (convTri c N (rawChange Y K) t)
    · exact lt_of_lt_of_le hc (min_le_right _ _)
    · rw [smoothedChange, if_neg hc] at h
      norm_num at h
  · intro h
    have h1 : eps < min 1 (convTri c N (rawChange Y K) t) :=
      lt_min (by norm_num [eps]) h
    rw [smoothedChange, if_pos h1]
